import Mathlib

/-!
Shallow embedding of the `locspan` library (spans, metadata pairs,
stripped comparison, recursive metadata mapping) and proofs about it.
Each definition mirrors one Rust item from `src/`.
-/

namespace Locspan

/-- `Span` from `src/span.rs`: a half-open byte range `{start, end}`.
`usize` fields are modelled as `Nat`. -/
structure Span where
  start : Nat
  «end» : Nat
  deriving DecidableEq, Repr

namespace Span

/-- `Span::new(start, end)`: `end` is clamped to `max(start, end)`. -/
def new (start e : Nat) : Span :=
  ⟨start, Nat.max start e⟩

/-- `Span::len`: `self.end - self.start` (truncated `Nat` subtraction). -/
def len (s : Span) : Nat :=
  s.«end» - s.start

/-- `Span::is_empty`: `self.end == self.start`. -/
def is_empty (s : Span) : Bool :=
  s.«end» == s.start

/-- `Span::contains` exactly as written in the source:
`self.start >= index && index < self.end`. -/
def contains (s : Span) (index : Nat) : Bool :=
  s.start ≥ index && index < s.«end»

/-- `Span::set_start`: sets `start`, clamping `end` up to it. -/
def set_start (s : Span) (start : Nat) : Span :=
  ⟨start, Nat.max start s.«end»⟩

/-- `Span::set_end`: sets `end`, clamped below by `start`. -/
def set_end (s : Span) (e : Nat) : Span :=
  ⟨s.start, Nat.max s.start e⟩

/-- `Span::union`: smallest span containing both. -/
def union (s other : Span) : Span :=
  ⟨Nat.min s.start other.start, Nat.max s.«end» other.«end»⟩

/-- `Span::append`: the in-place union, as a function on the receiver. -/
def append (s other : Span) : Span :=
  ⟨Nat.min s.start other.start, Nat.max s.«end» other.«end»⟩

/-- `Span::inter`: overlap, or the empty span at `max(starts)` if disjoint. -/
def inter (s other : Span) : Span :=
  let start := Nat.max s.start other.start
  ⟨start, Nat.max start (Nat.min s.«end» other.«end»)⟩

/-- `Span::clear`: moves the start position to the end position. -/
def clear (s : Span) : Span :=
  ⟨s.«end», s.«end»⟩

/-- `Span::next`: `self.end.into()`, i.e. `Span::new(end, end)`. -/
def next (s : Span) : Span :=
  new s.«end» s.«end»

/-- `Span::push(count)`: `self.end += count`. -/
def push (s : Span) (count : Nat) : Span :=
  ⟨s.start, s.«end» + count⟩

/-- The `Span` invariant stated by the spec: `end >= start`. -/
def WF (s : Span) : Prop :=
  s.start ≤ s.«end»

instance (s : Span) : Decidable s.WF := by
  unfold WF; infer_instance

/-- Sub-range containment between spans, in the ordinary sense used by the
spec when it says one span is contained in another. -/
def isSubspanOf (a b : Span) : Prop :=
  b.start ≤ a.start ∧ a.«end» ≤ b.«end»

end Span

/-- `Meta<T, M>` from `src/meta.rs`: a value together with its metadata.
The Rust tuple struct `Meta(pub T, pub M)` becomes a structure whose fields
are named after the `value`/`metadata` accessors. -/
structure Meta (T M : Type) where
  value : T
  metadata : M
  deriving DecidableEq, Repr

namespace Meta

/-- `Meta::new`. -/
def new {T M : Type} (t : T) (m : M) : Meta T M :=
  ⟨t, m⟩

/-- `Meta::map`: `Meta(f(self.0), self.1)`. -/
def map {T U M : Type} (f : T → U) (p : Meta T M) : Meta U M :=
  ⟨f p.value, p.metadata⟩

/-- The `#[derive(PartialEq)]` equality on `Meta`: component-wise, comparing
the value and the metadata. -/
def eqDerived {T M : Type} (a b : Meta T M) : Prop :=
  a.value = b.value ∧ a.metadata = b.metadata

/-- `StrippedPartialEq for Meta` from `src/strip/partial_eq.rs`:
`self.value().stripped_eq(other.value())`, parameterised by a stripped
equality on the two values, ignoring both metadata. -/
def stripped_eq {T U M N : Type} (seq : T → U → Bool)
    (a : Meta T M) (b : Meta U N) : Bool :=
  seq a.value b.value

/-- `StrippedOrd for Meta` from `src/strip/ord.rs`:
`self.value().stripped_cmp(other.value())`. -/
def stripped_cmp {T M : Type} (cmp : T → T → Ordering)
    (a b : Meta T M) : Ordering :=
  cmp a.value b.value

end Meta

/-- Rust `Option::unwrap`, with the panic on `None` made explicit as the
error case of an `Except`. -/
def optionUnwrapRust {T : Type} : Option T → Except Unit T
  | some t => .ok t
  | none => .error ()

namespace Meta

/-- `Meta::map` lifted over a possibly panicking function, so that
`Meta::<Option<T>, M>::unwrap = self.map(Option::unwrap)` can be expressed:
the panic aborts before any pair is built. -/
def mapPanic {T U M : Type} (f : T → Except Unit U) (p : Meta T M) :
    Except Unit (Meta U M) :=
  match f p.value with
  | .ok u => .ok ⟨u, p.metadata⟩
  | .error e => .error e

/-- `Meta::<Option<T>, M>::unwrap`: `self.map(Option::unwrap)`. -/
def unwrap {T M : Type} (p : Meta (Option T) M) : Except Unit (Meta T M) :=
  mapPanic optionUnwrapRust p

end Meta

/-- `StrippedPartialEq for HashMap` from `src/strip/partial_eq.rs`, the map
modelled as an association list with pairwise-distinct keys and `get`
modelled as `List.lookup`: same length, and every key of the left map is
mapped by the right map to a stripped-equal value. -/
def hashMapStrippedEq {K V W : Type} [BEq K] (seq : V → W → Bool)
    (l : List (K × V)) (r : List (K × W)) : Bool :=
  l.length == r.length &&
    l.all fun kv =>
      match r.lookup kv.1 with
      | some w => seq kv.2 w
      | none => false

/-- `StrippedPartialEq for Option` from `src/strip/partial_eq.rs`. -/
def optStrippedEq {T U : Type} (seq : T → U → Bool) :
    Option T → Option U → Bool
  | some a, some b => seq a b
  | none, none => true
  | _, _ => false

/-- `StrippedPartialEq for Vec` from `src/strip/partial_eq.rs`:
`self.len() == other.len() && zip-all element-wise stripped equality`. -/
def vecStrippedEq {T U : Type} (seq : T → U → Bool)
    (xs : List T) (ys : List U) : Bool :=
  xs.length == ys.length && (List.zip xs ys).all fun ab => seq ab.1 ab.2

/-- `StrippedOrd for Option` from `src/strip/ord.rs`: `None` orders before
any `Some`. -/
def optStrippedCmp {T : Type} (cmp : T → T → Ordering) :
    Option T → Option T → Ordering
  | none, none => .eq
  | none, some _ => .lt
  | some _, none => .gt
  | some a, some b => cmp a b

/-- `StrippedOrd for Vec` from `src/strip/ord.rs`: the element-wise loop,
stopping at the first non-equal pair, with exhaustion deciding the rest. -/
def vecStrippedCmp {T : Type} (cmp : T → T → Ordering) :
    List T → List T → Ordering
  | [], [] => .eq
  | [], _ :: _ => .lt
  | _ :: _, [] => .gt
  | x :: xs, y :: ys =>
      match cmp x y with
      | .eq => vecStrippedCmp cmp xs ys
      | c => c

/-- Rust `Box<T>`: an owned indirection around a value. -/
structure BoxT (T : Type) where
  val : T
  deriving DecidableEq, Repr

/-- `StrippedOrd for Box` from `src/strip/ord.rs`: dereference both sides. -/
def boxStrippedCmp {T : Type} (cmp : T → T → Ordering)
    (a b : BoxT T) : Ordering :=
  cmp a.val b.val

/-- `StrippedPartialEq for Box` from `src/strip/partial_eq.rs`. -/
def boxStrippedEq {T U : Type} (seq : T → U → Bool)
    (a : BoxT T) (b : BoxT U) : Bool :=
  seq a.val b.val

/-- Comparison on `Bool` used to instantiate the generic stripped-ordering
theorems at a concrete payload type. -/
def boolCmp : Bool → Bool → Ordering
  | false, false => .eq
  | false, true => .lt
  | true, false => .gt
  | true, true => .eq

mutual
/-- A value that is a tree of nested metadata pairs: either an atom of type
`A` (no metadata inside), or a value holding a list of nested `Meta` pairs.
This is the generic `T : MapMetadataRecursively` shape of `src/meta.rs`. -/
inductive TVal (A M : Type) : Type where
  | atom : A → TVal A M
  | pairs : PairList A M → TVal A M

/-- A list of nested metadata pairs `Meta(value, metadata)` inside a value;
the sibling order is the left-to-right visit order. -/
inductive PairList (A M : Type) : Type where
  | nil : PairList A M
  | cons : TVal A M → M → PairList A M → PairList A M
end

mutual
/-- Pre-order enumeration of the metadata inside a value: at each pair, the
own metadata of each pair comes before the metadata inside its value. -/
def TVal.preorder {A M : Type} : TVal A M → List M
  | .atom _ => []
  | .pairs l => PairList.preorder l

/-- Pre-order enumeration of the metadata of a pair list. -/
def PairList.preorder {A M : Type} : PairList A M → List M
  | .nil => []
  | .cons t m rest => m :: (TVal.preorder t ++ PairList.preorder rest)
end

mutual
/-- The metadata-erased shape of a value. -/
def TVal.shape {A M : Type} : TVal A M → TVal A Unit
  | .atom a => .atom a
  | .pairs l => .pairs (PairList.shape l)

/-- The metadata-erased shape of a pair list. -/
def PairList.shape {A M : Type} : PairList A M → PairList A Unit
  | .nil => .nil
  | .cons t _ rest => .cons (TVal.shape t) () (PairList.shape rest)
end

/-- Pre-order enumeration of a whole metadata pair `Meta(value, metadata)`:
the root metadata first, then the metadata inside the value. -/
def Meta.preorder {A M : Type} (p : Meta (TVal A M) M) : List M :=
  p.metadata :: TVal.preorder p.value

/-- The metadata-erased shape of a whole metadata pair. -/
def Meta.shape {A M : Type} (p : Meta (TVal A M) M) : TVal A Unit :=
  TVal.shape p.value

mutual
/-- `MapMetadataRecursively::map_metadata_recursively_mut_ref` for a tree
value. The Rust `&mut F` closure is modelled as a state-threading function
`f : σ → M → N × σ`: each invocation consumes the current state and returns
the new metadata together with the updated state. -/
def TVal.mapMetaRec {A M N σ : Type} (f : σ → M → N × σ) :
    TVal A M → σ → TVal A N × σ
  | .atom a, s => (.atom a, s)
  | .pairs l, s =>
      (TVal.pairs (PairList.mapMetaRec f l s).1, (PairList.mapMetaRec f l s).2)

/-- Recursive metadata mapping over a pair list: each pair maps its own
metadata first (as in `Meta::map_metadata_recursively_mut_ref`), then its
value, then the following pairs. -/
def PairList.mapMetaRec {A M N σ : Type} (f : σ → M → N × σ) :
    PairList A M → σ → PairList A N × σ
  | .nil, s => (.nil, s)
  | .cons t m rest, s =>
      (.cons (TVal.mapMetaRec f t (f s m).2).1 (f s m).1
          (PairList.mapMetaRec f rest (TVal.mapMetaRec f t (f s m).2).2).1,
        (PairList.mapMetaRec f rest (TVal.mapMetaRec f t (f s m).2).2).2)
end

/-- `Meta::map_metadata_recursively` (entry point, `src/meta.rs` lines
92-113): `let meta = f(self.1); Meta(self.0.map_metadata_recursively(f), meta)`
— the root metadata is mapped before the value is visited. -/
def Meta.map_metadata_recursively {A M N σ : Type} (f : σ → M → N × σ)
    (p : Meta (TVal A M) M) (s : σ) : Meta (TVal A N) N × σ :=
  (⟨(TVal.mapMetaRec f p.value (f s p.metadata).2).1, (f s p.metadata).1⟩,
    (TVal.mapMetaRec f p.value (f s p.metadata).2).2)

mutual
/-- `TryMapMetadataRecursively::try_map_metadata_recursively_mut_ref` for a
tree value: the `?` operator propagates the first error and aborts. -/
def TVal.tryMapMetaRec {A M N E σ : Type} (f : σ → M → Except E N × σ) :
    TVal A M → σ → Except E (TVal A N) × σ
  | .atom a, s => (.ok (.atom a), s)
  | .pairs l, s =>
      match PairList.tryMapMetaRec f l s with
      | (.ok r, s1) => (.ok (.pairs r), s1)
      | (.error e, s1) => (.error e, s1)

/-- Fallible recursive metadata mapping over a pair list: each pair tries
its own metadata first, then its value, then the following pairs, aborting
at the first error. -/
def PairList.tryMapMetaRec {A M N E σ : Type} (f : σ → M → Except E N × σ) :
    PairList A M → σ → Except E (PairList A N) × σ
  | .nil, s => (.ok .nil, s)
  | .cons t m rest, s =>
      match f s m with
      | (.error e, s1) => (.error e, s1)
      | (.ok n, s1) =>
        match TVal.tryMapMetaRec f t s1 with
        | (.error e, s2) => (.error e, s2)
        | (.ok t2, s2) =>
          match PairList.tryMapMetaRec f rest s2 with
          | (.error e, s3) => (.error e, s3)
          | (.ok r2, s3) => (.ok (.cons t2 n r2), s3)
end

/-- `Meta::try_map_metadata_recursively` (entry point, `src/meta.rs` lines
124-151): `let meta = f(self.1)?; Ok(Meta(self.0.try_map_metadata_recursively(f)?, meta))`. -/
def Meta.try_map_metadata_recursively {A M N E σ : Type}
    (f : σ → M → Except E N × σ) (p : Meta (TVal A M) M) (s : σ) :
    Except E (Meta (TVal A N) N) × σ :=
  match f s p.metadata with
  | (.error e, s1) => (.error e, s1)
  | (.ok n, s1) =>
    match TVal.tryMapMetaRec f p.value s1 with
    | (.error e, s2) => (.error e, s2)
    | (.ok t2, s2) => (.ok ⟨t2, n⟩, s2)

/-- Reference sequential mapping of a state-threading function over a list,
in list order (`mapAccumL`). The traversal theorems compare the tree code
with this function applied to the pre-order metadata enumeration. -/
def statefulMap {M N σ : Type} (f : σ → M → N × σ) : σ → List M → List N × σ
  | s, [] => ([], s)
  | s, m :: ms =>
      ((f s m).1 :: (statefulMap f (f s m).2 ms).1, (statefulMap f (f s m).2 ms).2)

/-- Reference sequential fallible mapping of a state-threading function over
a list, stopping at the first error. -/
def statefulTryMap {M N E σ : Type} (f : σ → M → Except E N × σ) :
    σ → List M → Except E (List N) × σ
  | s, [] => (.ok [], s)
  | s, m :: ms =>
      match f s m with
      | (.error e, s1) => (.error e, s1)
      | (.ok n, s1) =>
        match statefulTryMap f s1 ms with
        | (.error e, s2) => (.error e, s2)
        | (.ok ns, s2) => (.ok (n :: ns), s2)

/-- Modelled from the spec: the error produced at the first element of the
list that `g` rejects, if any. -/
def firstError {M N E : Type} (g : M → Except E N) : List M → Option E
  | [] => none
  | m :: ms =>
      match g m with
      | .error e => some e
      | .ok _ => firstError g ms

/-- Modelled from the spec: the elements actually visited when the traversal
stops at the first failure — the whole list when `g` accepts every element,
otherwise the elements up to and including the first rejected one. -/
def visitUpToFirstFail {M N E : Type} (g : M → Except E N) : List M → List M
  | [] => []
  | m :: ms =>
      match g m with
      | .error _ => [m]
      | .ok _ => m :: visitUpToFirstFail g ms

/-- A three-node tree of nested metadata pairs with pre-order metadata
`[0, 1, 2]`: the root pair carries `0`; its value holds a pair carrying `1`
whose value holds a pair carrying `2`. -/
def tree3 : Meta (TVal Unit Nat) Nat :=
  ⟨.pairs (.cons (.pairs (.cons (.atom ()) 2 .nil)) 1 .nil), 0⟩

end Locspan

open Locspan

/-- C1: the source of `Span::contains` tests `self.start >= index` instead of
`self.start <= index`, contradicting its own doc comment and the spec. At the
failing input `Span::new(1, 3)`, index `2`: the code returns `false` although
`1 ≤ 2 < 3`, so `2` lies in the half-open range `[1, 3)`. -/
theorem C1_contains_codebug :
    (Span.new 1 3).contains 2 = false ∧
      (Span.new 1 3).start ≤ 2 ∧ 2 < (Span.new 1 3).«end» := by
  decide

/-- C4: every `Span` operation maintains the invariant `end ≥ start`:
`new` clamps (`end < start` gives the empty span at `start`), `len` is
`end - start` when `start ≤ end`, and `set_start`, `set_end`, `append`,
`clear`, `push`, `union`, `inter` and `next` all preserve well-formedness. -/
theorem C4_span_invariant (a b : Span) (c start e : Nat)
    (ha : a.WF) (hb : b.WF) :
    (e < start → (Span.new start e).«end» = start ∧ (Span.new start e).is_empty = true) ∧
    (start ≤ e → (Span.new start e).len = e - start) ∧
    (Span.new start e).WF ∧
    (a.set_start c).WF ∧
    (a.set_end c).WF ∧
    (a.append b).WF ∧
    a.clear.WF ∧
    (a.push c).WF ∧
    (a.union b).WF ∧
    (a.inter b).WF ∧
    a.next.WF := by
  unfold Span.WF at ha hb
  refine ⟨?_, ?_, ?_, ?_, ?_, ?_, ?_, ?_, ?_, ?_, ?_⟩ <;>
    simp_all [Span.new, Span.len, Span.is_empty, Span.set_start, Span.set_end,
      Span.append, Span.clear, Span.push, Span.union, Span.inter, Span.next,
      Span.WF] <;> omega

/-- Witness for C4 at concrete spans. -/
theorem C4_span_invariant_witness :
    (Span.mk 1 4).WF ∧ (Span.mk 2 2).WF ∧
    ((3 < 5 → (Span.new 5 3).«end» = 5 ∧ (Span.new 5 3).is_empty = true) ∧
    (5 ≤ 3 → (Span.new 5 3).len = 3 - 5) ∧
    (Span.new 5 3).WF ∧
    ((Span.mk 1 4).set_start 7).WF ∧
    ((Span.mk 1 4).set_end 7).WF ∧
    ((Span.mk 1 4).append (Span.mk 2 2)).WF ∧
    (Span.mk 1 4).clear.WF ∧
    ((Span.mk 1 4).push 7).WF ∧
    ((Span.mk 1 4).union (Span.mk 2 2)).WF ∧
    ((Span.mk 1 4).inter (Span.mk 2 2)).WF ∧
    (Span.mk 1 4).next.WF) :=
  ⟨by decide, by decide,
    C4_span_invariant (Span.mk 1 4) (Span.mk 2 2) 7 5 3 (by decide) (by decide)⟩

/-- C5: span algebra: `union(a, a) = a`, `union` and `inter` commute,
`inter(a, b)` is contained in `union(a, b)`, and `append` computes exactly
`union`. -/
theorem C5_span_algebra (a b : Span) (ha : a.WF) (hb : b.WF) :
    a.union a = a ∧
    a.union b = b.union a ∧
    a.inter b = b.inter a ∧
    (a.inter b).isSubspanOf (a.union b) ∧
    a.append b = a.union b := by
  unfold Span.WF at ha hb
  obtain ⟨sa, ea⟩ := a
  obtain ⟨sb, eb⟩ := b
  refine ⟨?_, ?_, ?_, ?_, ?_⟩ <;>
    simp_all [Span.union, Span.inter, Span.append, Span.isSubspanOf,
      Span.mk.injEq, Nat.min_comm, Nat.max_comm] <;> omega

/-- Witness for C5 at concrete spans. -/
theorem C5_span_algebra_witness :
    (Span.mk 2 5).WF ∧ (Span.mk 10 12).WF ∧
    ((Span.mk 2 5).union (Span.mk 2 5) = Span.mk 2 5 ∧
    (Span.mk 2 5).union (Span.mk 10 12) = (Span.mk 10 12).union (Span.mk 2 5) ∧
    (Span.mk 2 5).inter (Span.mk 10 12) = (Span.mk 10 12).inter (Span.mk 2 5) ∧
    ((Span.mk 2 5).inter (Span.mk 10 12)).isSubspanOf
      ((Span.mk 2 5).union (Span.mk 10 12)) ∧
    (Span.mk 2 5).append (Span.mk 10 12) = (Span.mk 2 5).union (Span.mk 10 12)) :=
  ⟨by decide, by decide,
    C5_span_algebra (Span.mk 2 5) (Span.mk 10 12) (by decide) (by decide)⟩

/-- C9: `clear` collapses the start to the end: afterwards `start = end`
where the end is unchanged. -/
theorem C9_clear_collapses_to_end (s : Span) :
    s.clear.start = s.«end» ∧ s.clear.«end» = s.«end» ∧
      s.clear.start = s.clear.«end» := by
  simp [Span.clear]

/-- C6: stripped equality on `Meta` ignores metadata while the derived
equality does not: for a value `v` that is stripped-equal to itself and any
two distinct metadata `m1 ≠ m2`, the pairs are stripped-equal but not equal
under the derived component-wise equality. -/
theorem C6_stripped_eq_ignores_metadata {T M : Type} (seq : T → T → Bool)
    (v : T) (m1 m2 : M) (hv : seq v v = true) (hm : m1 ≠ m2) :
    Meta.stripped_eq seq (Meta.mk v m1) (Meta.mk v m2) = true ∧
      ¬ Meta.eqDerived (Meta.mk v m1) (Meta.mk v m2) := by
  refine ⟨hv, fun h => hm h.2⟩

/-- Witness for C6 at `v = 5`, `m1 = 0`, `m2 = 1` over `Nat`. -/
theorem C6_stripped_eq_ignores_metadata_witness :
    (fun a b : Nat => a == b) 5 5 = true ∧ (0 : Nat) ≠ 1 ∧
    (Meta.stripped_eq (fun a b : Nat => a == b) (Meta.mk 5 0) (Meta.mk 5 1) = true ∧
      ¬ Meta.eqDerived (Meta.mk (5 : Nat) (0 : Nat)) (Meta.mk 5 1)) :=
  ⟨by decide, by decide,
    C6_stripped_eq_ignores_metadata (fun a b : Nat => a == b) 5 0 1
      (by decide) (by decide)⟩

/-- C7: stripped equality on hash maps holds iff the sizes agree and every
key of the left map is mapped by the right map to a stripped-equal value
(asymmetric, driven by the keys of the left map); concretely,
`{0 ↦ Meta(1, 100)}` and `{0 ↦ Meta(1, 200), 1 ↦ Meta(2, 300)}` are
stripped-equal in neither direction, while `{0 ↦ Meta(1, 100)}` and
`{0 ↦ Meta(1, 200)}` are stripped-equal although `100 ≠ 200`. -/
theorem C7_hashmap_stripped_eq {K V W : Type} [BEq K] (seq : V → W → Bool)
    (l : List (K × V)) (r : List (K × W)) :
    (hashMapStrippedEq seq l r = true ↔
      l.length = r.length ∧
        ∀ kv ∈ l, ∃ w, r.lookup kv.1 = some w ∧ seq kv.2 w = true) ∧
    hashMapStrippedEq (Meta.stripped_eq (fun a b : Nat => a == b))
      [((0 : Nat), Meta.mk (1 : Nat) (100 : Nat))]
      [(0, Meta.mk 1 200), (1, Meta.mk 2 300)] = false ∧
    hashMapStrippedEq (Meta.stripped_eq (fun a b : Nat => a == b))
      [((0 : Nat), Meta.mk (1 : Nat) (200 : Nat)), (1, Meta.mk 2 300)]
      [(0, Meta.mk 1 100)] = false ∧
    hashMapStrippedEq (Meta.stripped_eq (fun a b : Nat => a == b))
      [((0 : Nat), Meta.mk (1 : Nat) (100 : Nat))]
      [(0, Meta.mk 1 200)] = true ∧
    (100 : Nat) ≠ 200 := by
  refine ⟨?_, by decide, by decide, by decide, by decide⟩
  unfold hashMapStrippedEq
  simp only [Bool.and_eq_true, beq_iff_eq, List.all_eq_true]
  constructor
  · rintro ⟨hlen, hall⟩
    refine ⟨hlen, fun kv hkv => ?_⟩
    have h := hall kv hkv
    cases hr : r.lookup kv.1 with
    | none => rw [hr] at h; exact absurd h (by simp)
    | some w => rw [hr] at h; exact ⟨w, rfl, h⟩
  · rintro ⟨hlen, hall⟩
    refine ⟨hlen, fun kv hkv => ?_⟩
    obtain ⟨w, hw, hs⟩ := hall kv hkv
    rw [hw]
    exact hs

/-- C10: `Meta::<Option<T>, M>::unwrap` returns `Meta(t, m)` with the
metadata unchanged when the inner option is `Some(t)`, and panics (modelled
as the `Except` error) when it is `None`. -/
theorem C10_unwrap_panics_on_none {T M : Type} (t : T) (m mn : M) :
    Meta.unwrap (Meta.mk (some t) m) = .ok (Meta.mk t m) ∧
      Meta.unwrap (Meta.mk (none : Option T) mn) = .error () := by
  constructor <;> rfl

/-- Sequential stateful mapping distributes over list append: the second
half starts from the state the first half ends in. -/
theorem statefulMap_append {M N σ : Type} (f : σ → M → N × σ)
    (xs : List M) : ∀ (ys : List M) (s : σ),
    statefulMap f s (xs ++ ys) =
      ((statefulMap f s xs).1 ++ (statefulMap f (statefulMap f s xs).2 ys).1,
        (statefulMap f (statefulMap f s xs).2 ys).2) := by
  induction xs with
  | nil => intro ys s; simp [statefulMap]
  | cons m ms ih => intro ys s; simp [statefulMap, ih]

/-- A logging transformation threaded over a list appends exactly the list
to its log. -/
theorem statefulMap_log {M N : Type} (g : M → N) :
    ∀ (ms log : List M),
      (statefulMap (fun (log : List M) m => (g m, log ++ [m])) log ms).2
        = log ++ ms
  | [], log => by simp [statefulMap]
  | m :: ms, log => by
      simp [statefulMap, statefulMap_log g ms]

mutual
/-- Recursive metadata mapping of a tree value refines the sequential
mapping of its pre-order metadata enumeration: shape preserved, new
metadata in pre-order, same final state. -/
theorem TVal.mapMetaRec_spec_val {A M N σ : Type} (f : σ → M → N × σ) :
    ∀ (t : TVal A M) (s : σ),
      TVal.shape (TVal.mapMetaRec f t s).1 = TVal.shape t ∧
      TVal.preorder (TVal.mapMetaRec f t s).1
        = (statefulMap f s (TVal.preorder t)).1 ∧
      (TVal.mapMetaRec f t s).2 = (statefulMap f s (TVal.preorder t)).2
  | .atom a, s => by
      simp [TVal.mapMetaRec, TVal.shape, TVal.preorder, statefulMap]
  | .pairs l, s => by
      have h := PairList.mapMetaRec_spec_list f l s
      simp [TVal.mapMetaRec, TVal.shape, TVal.preorder, h.1, h.2.1, h.2.2]

/-- Pair-list counterpart of `TVal.mapMetaRec_spec_val`. -/
theorem PairList.mapMetaRec_spec_list {A M N σ : Type} (f : σ → M → N × σ) :
    ∀ (l : PairList A M) (s : σ),
      PairList.shape (PairList.mapMetaRec f l s).1 = PairList.shape l ∧
      PairList.preorder (PairList.mapMetaRec f l s).1
        = (statefulMap f s (PairList.preorder l)).1 ∧
      (PairList.mapMetaRec f l s).2 = (statefulMap f s (PairList.preorder l)).2
  | .nil, s => by
      simp [PairList.mapMetaRec, PairList.shape, PairList.preorder, statefulMap]
  | .cons t m rest, s => by
      have ht := TVal.mapMetaRec_spec_val f t (f s m).2
      have hr := PairList.mapMetaRec_spec_list f rest
        (TVal.mapMetaRec f t (f s m).2).2
      rw [ht.2.2] at hr
      simp [PairList.mapMetaRec, PairList.shape, PairList.preorder,
        statefulMap, statefulMap_append, ht.1, ht.2.1, ht.2.2,
        hr.1, hr.2.1, hr.2.2]
end

/-- C3: `map_metadata_recursively` preserves the tree shape and applies the
transformation in pre-order: the new metadata, read in pre-order, equals the
sequential stateful mapping of the old pre-order enumeration; the final
state is that of the sequential mapping; and the log of a logging
transformation is exactly the pre-order enumeration (root before children). -/
theorem C3_map_metadata_recursively_preorder {A M N σ : Type}
    (f : σ → M → N × σ) (s : σ) (g : M → N) (p : Meta (TVal A M) M) :
    Meta.shape (Meta.map_metadata_recursively f p s).1 = Meta.shape p ∧
    Meta.preorder (Meta.map_metadata_recursively f p s).1
      = (statefulMap f s (Meta.preorder p)).1 ∧
    (Meta.map_metadata_recursively f p s).2
      = (statefulMap f s (Meta.preorder p)).2 ∧
    (Meta.map_metadata_recursively
        (fun (log : List M) m => (g m, log ++ [m])) p []).2
      = Meta.preorder p := by
  have h := TVal.mapMetaRec_spec_val f p.value (f s p.metadata).2
  have h2 := TVal.mapMetaRec_spec_val
    (fun (log : List M) m => (g m, log ++ [m])) p.value [p.metadata]
  refine ⟨?_, ?_, ?_, ?_⟩
  · simpa [Meta.map_metadata_recursively, Meta.shape] using h.1
  · simp [Meta.map_metadata_recursively, Meta.preorder, statefulMap, h.2.1]
  · simp [Meta.map_metadata_recursively, Meta.preorder, statefulMap, h.2.2]
  · simp [Meta.map_metadata_recursively, Meta.preorder, h2.2.2,
      statefulMap_log g]

/-- If the sequential fallible mapping fails on the first half of an
appended list, the whole list fails with the same error and state. -/
theorem statefulTryMap_append_error {M N E σ : Type}
    (f : σ → M → Except E N × σ) :
    ∀ (xs ys : List M) (s : σ) (e : E),
      (statefulTryMap f s xs).1 = .error e →
      statefulTryMap f s (xs ++ ys) = (.error e, (statefulTryMap f s xs).2)
  | [], ys, s, e => by simp [statefulTryMap]
  | m :: ms, ys, s, e => by
      intro h
      rcases hfm : f s m with ⟨fr, s1⟩
      cases fr with
      | error e2 =>
          simp [statefulTryMap, hfm] at h ⊢
          exact h
      | ok n =>
          rcases hms : statefulTryMap f s1 ms with ⟨mr, s2⟩
          cases mr with
          | error e2 =>
              simp [statefulTryMap, hfm, hms] at h
              subst h
              have h2 : (statefulTryMap f s1 ms).1 = .error e2 := by rw [hms]
              have h3 := statefulTryMap_append_error f ms ys s1 e2 h2
              simp [statefulTryMap, hfm, hms, h3]
          | ok ns =>
              simp [statefulTryMap, hfm, hms] at h

/-- If the sequential fallible mapping succeeds on the first half of an
appended list, the whole list continues from its final state and prepends
its results. -/
theorem statefulTryMap_append_ok {M N E σ : Type}
    (f : σ → M → Except E N × σ) :
    ∀ (xs ys : List M) (s : σ) (ns : List N),
      (statefulTryMap f s xs).1 = .ok ns →
      statefulTryMap f s (xs ++ ys) =
        (Except.map (fun ms => ns ++ ms)
            (statefulTryMap f (statefulTryMap f s xs).2 ys).1,
          (statefulTryMap f (statefulTryMap f s xs).2 ys).2)
  | [], ys, s, ns => by
      intro h
      simp only [statefulTryMap, Except.ok.injEq] at h
      subst h
      rcases hys : statefulTryMap f s ys with ⟨yr, s2⟩
      cases yr <;> simp [statefulTryMap, hys, Except.map]
  | m :: ms, ys, s, ns => by
      intro h
      rcases hfm : f s m with ⟨fr, s1⟩
      cases fr with
      | error e2 => simp [statefulTryMap, hfm] at h
      | ok n =>
          rcases hms : statefulTryMap f s1 ms with ⟨mr, s2⟩
          cases mr with
          | error e2 => simp [statefulTryMap, hfm, hms] at h
          | ok ns2 =>
              simp [statefulTryMap, hfm, hms] at h
              subst h
              have h2 : (statefulTryMap f s1 ms).1 = .ok ns2 := by rw [hms]
              have h3 := statefulTryMap_append_ok f ms ys s1 ns2 h2
              rw [hms] at h3
              rcases hys : statefulTryMap f s2 ys with ⟨yr, s3⟩
              rw [hys] at h3
              cases yr <;>
                simp [statefulTryMap, hfm, hms, hys, h3, Except.map]

/-- A logging fallible transformation threaded over a list records exactly
the elements up to and including the first one it rejects, and the first
error is the one returned. -/
theorem statefulTryMap_log {M N E : Type} (g : M → Except E N) :
    ∀ (ms log : List M),
      (statefulTryMap (fun (log : List M) m => (g m, log ++ [m])) log ms).2
          = log ++ visitUpToFirstFail g ms ∧
      ∀ e, ((statefulTryMap (fun (log : List M) m => (g m, log ++ [m])) log ms).1
          = .error e ↔ firstError g ms = some e)
  | [], log => by simp [statefulTryMap, visitUpToFirstFail, firstError]
  | m :: ms, log => by
      have ih := statefulTryMap_log g ms (log ++ [m])
      cases hg : g m with
      | error e2 =>
          simp [statefulTryMap, visitUpToFirstFail, firstError, hg]
      | ok n =>
          rcases hms : statefulTryMap (fun (log : List M) m => (g m, log ++ [m]))
              (log ++ [m]) ms with ⟨mr, s2⟩
          rw [hms] at ih
          cases mr with
          | error e2 =>
              simp_all [statefulTryMap, visitUpToFirstFail, firstError, hg]
          | ok ns =>
              simp_all [statefulTryMap, visitUpToFirstFail, firstError, hg]

mutual
/-- Fallible recursive metadata mapping of a tree value refines the
sequential fallible mapping of its pre-order metadata enumeration: same
final state, same outcome (the successful tree read in pre-order, or the
same error), and on success the shape is preserved. -/
theorem TVal.tryMapMetaRec_spec_val {A M N E σ : Type}
    (f : σ → M → Except E N × σ) :
    ∀ (t : TVal A M) (s : σ),
      (TVal.tryMapMetaRec f t s).2
          = (statefulTryMap f s (TVal.preorder t)).2 ∧
      Except.map TVal.preorder (TVal.tryMapMetaRec f t s).1
          = (statefulTryMap f s (TVal.preorder t)).1 ∧
      ∀ t2, (TVal.tryMapMetaRec f t s).1 = .ok t2 →
          TVal.shape t2 = TVal.shape t
  | .atom a, s => by
      refine ⟨rfl, rfl, ?_⟩
      intro t2 h
      simp only [TVal.tryMapMetaRec, Except.ok.injEq] at h
      subst h
      rfl
  | .pairs l, s => by
      have h := PairList.tryMapMetaRec_spec_list f l s
      rcases hl : PairList.tryMapMetaRec f l s with ⟨lr, s1⟩
      rw [hl] at h
      dsimp only at h
      cases lr with
      | error e =>
          refine ⟨?_, ?_, ?_⟩
          · simp [TVal.tryMapMetaRec, TVal.preorder, hl, h.1]
          · simpa [TVal.tryMapMetaRec, TVal.preorder, hl, Except.map]
              using h.2.1
          · intro t2 h2
            simp [TVal.tryMapMetaRec, hl] at h2
      | ok l2 =>
          refine ⟨?_, ?_, ?_⟩
          · simp [TVal.tryMapMetaRec, TVal.preorder, hl, h.1]
          · simpa [TVal.tryMapMetaRec, TVal.preorder, hl, Except.map]
              using h.2.1
          · intro t2 h2
            simp [TVal.tryMapMetaRec, hl] at h2
            subst h2
            simp [TVal.shape, h.2.2 l2 rfl]

/-- Pair-list counterpart of `TVal.tryMapMetaRec_spec_val`: each pair maps its
own metadata first, then its value, then the following pairs, and the whole
run agrees with the sequential mapping of the pre-order enumeration. -/
theorem PairList.tryMapMetaRec_spec_list {A M N E σ : Type}
    (f : σ → M → Except E N × σ) :
    ∀ (l : PairList A M) (s : σ),
      (PairList.tryMapMetaRec f l s).2
          = (statefulTryMap f s (PairList.preorder l)).2 ∧
      Except.map PairList.preorder (PairList.tryMapMetaRec f l s).1
          = (statefulTryMap f s (PairList.preorder l)).1 ∧
      ∀ l2, (PairList.tryMapMetaRec f l s).1 = .ok l2 →
          PairList.shape l2 = PairList.shape l
  | .nil, s => by
      refine ⟨rfl, rfl, ?_⟩
      intro l2 h
      simp only [PairList.tryMapMetaRec, Except.ok.injEq] at h
      subst h
      rfl
  | .cons t m rest, s => by
      rcases hfm : f s m with ⟨fr, s1⟩
      cases fr with
      | error e =>
          refine ⟨?_, ?_, ?_⟩
          · simp [PairList.tryMapMetaRec, PairList.preorder, statefulTryMap,
              hfm]
          · simp [PairList.tryMapMetaRec, PairList.preorder, statefulTryMap,
              hfm, Except.map]
          · intro l2 h2
            simp [PairList.tryMapMetaRec, hfm] at h2
      | ok n =>
          have ht := TVal.tryMapMetaRec_spec_val f t s1
          rcases htm : TVal.tryMapMetaRec f t s1 with ⟨tr, s2⟩
          rw [htm] at ht
          cases tr with
          | error e =>
              have herr : (statefulTryMap f s1 (TVal.preorder t)).1
                  = .error e := by
                rw [← ht.2.1]; rfl
              have happ := statefulTryMap_append_error f (TVal.preorder t)
                (PairList.preorder rest) s1 e herr
              refine ⟨?_, ?_, ?_⟩
              · simp [PairList.tryMapMetaRec, PairList.preorder,
                  statefulTryMap, hfm, htm, happ, ht.1]
              · simp [PairList.tryMapMetaRec, PairList.preorder,
                  statefulTryMap, hfm, htm, happ, Except.map]
              · intro l2 h2
                simp [PairList.tryMapMetaRec, hfm, htm] at h2
          | ok t2 =>
              have hok : (statefulTryMap f s1 (TVal.preorder t)).1
                  = .ok (TVal.preorder t2) := by
                rw [← ht.2.1]; rfl
              have happ := statefulTryMap_append_ok f (TVal.preorder t)
                (PairList.preorder rest) s1 (TVal.preorder t2) hok
              have hst : (statefulTryMap f s1 (TVal.preorder t)).2 = s2 :=
                ht.1.symm
              rw [hst] at happ
              have hr := PairList.tryMapMetaRec_spec_list f rest s2
              rcases hrm : PairList.tryMapMetaRec f rest s2 with ⟨rr, s3⟩
              rw [hrm] at hr
              cases rr with
              | error e =>
                  have herr2 : (statefulTryMap f s2
                      (PairList.preorder rest)).1 = .error e := by
                    rw [← hr.2.1]; rfl
                  rcases hsr : statefulTryMap f s2 (PairList.preorder rest)
                    with ⟨sr, s4⟩
                  rw [hsr] at happ herr2
                  dsimp only at herr2
                  subst herr2
                  have hst2 := hr.1
                  rw [hsr] at hst2
                  dsimp only at hst2
                  refine ⟨?_, ?_, ?_⟩
                  · simp [PairList.tryMapMetaRec, PairList.preorder,
                      statefulTryMap, hfm, htm, hrm, happ, hst2, Except.map]
                  · simp [PairList.tryMapMetaRec, PairList.preorder,
                      statefulTryMap, hfm, htm, hrm, happ, Except.map]
                  · intro l2 h2
                    simp [PairList.tryMapMetaRec, hfm, htm, hrm] at h2
              | ok r2 =>
                  have hokr : (statefulTryMap f s2
                      (PairList.preorder rest)).1 = .ok (PairList.preorder r2) := by
                    rw [← hr.2.1]; rfl
                  rcases hsr : statefulTryMap f s2 (PairList.preorder rest)
                    with ⟨sr, s4⟩
                  rw [hsr] at happ hokr
                  dsimp only at hokr
                  subst hokr
                  have hst2 := hr.1
                  rw [hsr] at hst2
                  dsimp only at hst2
                  refine ⟨?_, ?_, ?_⟩
                  · simp [PairList.tryMapMetaRec, PairList.preorder,
                      statefulTryMap, hfm, htm, hrm, happ, hst2, Except.map]
                  · simp [PairList.tryMapMetaRec, PairList.preorder,
                      statefulTryMap, hfm, htm, hrm, happ, Except.map]
                  · intro l2 h2
                    simp [PairList.tryMapMetaRec, hfm, htm, hrm] at h2
                    subst h2
                    simp [PairList.shape, TVal.shape, ht.2.2 t2 rfl,
                      hr.2.2 r2 rfl]
end

/-- `Meta::try_map_metadata_recursively` refines the sequential fallible
mapping of the whole pre-order metadata enumeration (root metadata first). -/
theorem Meta.tryMapMetaRec_spec_meta {A M N E σ : Type}
    (f : σ → M → Except E N × σ) (p : Meta (TVal A M) M) (s : σ) :
    (Meta.try_map_metadata_recursively f p s).2
        = (statefulTryMap f s (Meta.preorder p)).2 ∧
    Except.map Meta.preorder (Meta.try_map_metadata_recursively f p s).1
        = (statefulTryMap f s (Meta.preorder p)).1 ∧
    ∀ q, (Meta.try_map_metadata_recursively f p s).1 = .ok q →
        Meta.shape q = Meta.shape p := by
  rcases hfm : f s p.metadata with ⟨fr, s1⟩
  cases fr with
  | error e =>
      refine ⟨?_, ?_, ?_⟩
      · simp [Meta.try_map_metadata_recursively, Meta.preorder,
          statefulTryMap, hfm]
      · simp [Meta.try_map_metadata_recursively, Meta.preorder,
          statefulTryMap, hfm, Except.map]
      · intro q hq
        simp [Meta.try_map_metadata_recursively, hfm] at hq
  | ok n =>
      have ht := TVal.tryMapMetaRec_spec_val f p.value s1
      rcases htm : TVal.tryMapMetaRec f p.value s1 with ⟨tr, s2⟩
      rw [htm] at ht
      dsimp only at ht
      cases tr with
      | error e =>
          have h1 : (statefulTryMap f s1 (TVal.preorder p.value)).1
              = .error e := by rw [← ht.2.1]; rfl
          rcases hs2 : statefulTryMap f s1 (TVal.preorder p.value)
            with ⟨w, s3⟩
          rw [hs2] at h1
          dsimp only at h1
          subst h1
          have h2 := ht.1
          rw [hs2] at h2
          dsimp only at h2
          refine ⟨?_, ?_, ?_⟩
          · simp [Meta.try_map_metadata_recursively, Meta.preorder,
              statefulTryMap, hfm, htm, hs2, h2]
          · simp [Meta.try_map_metadata_recursively, Meta.preorder,
              statefulTryMap, hfm, htm, hs2, Except.map]
          · intro q hq
            simp [Meta.try_map_metadata_recursively, hfm, htm] at hq
      | ok t2 =>
          have h1 : (statefulTryMap f s1 (TVal.preorder p.value)).1
              = .ok (TVal.preorder t2) := by rw [← ht.2.1]; rfl
          rcases hs2 : statefulTryMap f s1 (TVal.preorder p.value)
            with ⟨w, s3⟩
          rw [hs2] at h1
          dsimp only at h1
          subst h1
          have h2 := ht.1
          rw [hs2] at h2
          dsimp only at h2
          refine ⟨?_, ?_, ?_⟩
          · simp [Meta.try_map_metadata_recursively, Meta.preorder,
              statefulTryMap, hfm, htm, hs2, h2]
          · simp [Meta.try_map_metadata_recursively, Meta.preorder,
              statefulTryMap, hfm, htm, hs2, Except.map]
          · intro q hq
            simp [Meta.try_map_metadata_recursively, hfm, htm] at hq
            subst hq
            simp [Meta.shape, ht.2.2 t2 rfl]

/-- C2: `try_map_metadata_recursively` stops at the first rejected node in
pre-order: it agrees with the sequential fallible mapping of the pre-order
enumeration (same final state, same error or success list, shape preserved
on success), a logging transformation records exactly the nodes up to and
including the first failing one, the returned error is exactly the error the
transformation produced there, and on the three-node tree `tree3` where the
transformation fails on the second visited node it is invoked exactly twice
and the error of the second node is returned. -/
theorem C2_try_map_metadata_first_error {A M N E σ : Type}
    (f : σ → M → Except E N × σ) (s : σ) (g : M → Except E N)
    (p : Meta (TVal A M) M) :
    (Meta.try_map_metadata_recursively f p s).2
        = (statefulTryMap f s (Meta.preorder p)).2 ∧
    Except.map Meta.preorder (Meta.try_map_metadata_recursively f p s).1
        = (statefulTryMap f s (Meta.preorder p)).1 ∧
    (∀ q, (Meta.try_map_metadata_recursively f p s).1 = .ok q →
        Meta.shape q = Meta.shape p) ∧
    (Meta.try_map_metadata_recursively
        (fun (log : List M) m => (g m, log ++ [m])) p []).2
        = visitUpToFirstFail g (Meta.preorder p) ∧
    (∀ e, ((Meta.try_map_metadata_recursively
        (fun (log : List M) m => (g m, log ++ [m])) p []).1 = .error e ↔
        firstError g (Meta.preorder p) = some e)) ∧
    (Meta.try_map_metadata_recursively
        (fun (log : List Nat) m =>
          ((if m = 1 then Except.error m else Except.ok m : Except Nat Nat),
            log ++ [m])) tree3 []).2 = [0, 1] ∧
    (Meta.try_map_metadata_recursively
        (fun (log : List Nat) m =>
          ((if m = 1 then Except.error m else Except.ok m : Except Nat Nat),
            log ++ [m])) tree3 []).1 = Except.error 1 := by
  have hmain := Meta.tryMapMetaRec_spec_meta f p s
  have hlog := Meta.tryMapMetaRec_spec_meta
    (fun (log : List M) m => (g m, log ++ [m])) p []
  have hsl := statefulTryMap_log g (Meta.preorder p) []
  refine ⟨hmain.1, hmain.2.1, hmain.2.2, ?_, ?_, rfl, rfl⟩
  · rw [hlog.1, hsl.1]
    simp
  · intro e
    rw [← hsl.2 e, ← hlog.2.1]
    rcases hc : (Meta.try_map_metadata_recursively
        (fun (log : List M) m => (g m, log ++ [m])) p []).1 with e2 | q
    · simp [Except.map]
    · simp [Except.map]

/-- If the element comparison is `eq` exactly on stripped-equal elements,
the sequence comparison loop returns `eq` exactly on stripped-equal
sequences. -/
theorem vecStrippedCmp_eq_iff {T : Type} (cmp : T → T → Ordering)
    (seq : T → T → Bool)
    (hc : ∀ x y, cmp x y = Ordering.eq ↔ seq x y = true) :
    ∀ xs ys : List T,
      vecStrippedCmp cmp xs ys = Ordering.eq ↔ vecStrippedEq seq xs ys = true
  | [], [] => by simp [vecStrippedCmp, vecStrippedEq]
  | [], y :: ys => by simp [vecStrippedCmp, vecStrippedEq]
  | x :: xs, [] => by simp [vecStrippedCmp, vecStrippedEq]
  | x :: xs, y :: ys => by
      have ih := vecStrippedCmp_eq_iff cmp seq hc xs ys
      have hxy := hc x y
      cases hcmp : cmp x y with
      | eq =>
          rw [hcmp] at hxy
          simp [vecStrippedCmp, vecStrippedEq, hcmp, ih, hxy.1 rfl,
            vecStrippedEq] at ih ⊢
      | lt =>
          rw [hcmp] at hxy
          have : seq x y = false := by
            cases hs : seq x y
            · rfl
            · exact absurd (hxy.2 hs) (by simp)
          simp [vecStrippedCmp, vecStrippedEq, hcmp, this]
      | gt =>
          rw [hcmp] at hxy
          have : seq x y = false := by
            cases hs : seq x y
            · rfl
            · exact absurd (hxy.2 hs) (by simp)
          simp [vecStrippedCmp, vecStrippedEq, hcmp, this]

/-- C8: stripped total ordering is consistent with stripped equality for
`Meta` pairs, `Box`, `Option` and `Vec` over any payload whose comparison is
consistent; sequence comparison is lexicographic, stopping at the first
non-equal pair, a strict prefix ordering before the longer sequence, and
`None` ordering before any `Some`. -/
theorem C8_stripped_cmp_consistent {T M : Type}
    (cmp : T → T → Ordering) (seq : T → T → Bool)
    (hc : ∀ x y, cmp x y = Ordering.eq ↔ seq x y = true) :
    (∀ a b : Meta T M, Meta.stripped_cmp cmp a b = Ordering.eq ↔
        Meta.stripped_eq seq a b = true) ∧
    (∀ a b : BoxT T, boxStrippedCmp cmp a b = Ordering.eq ↔
        boxStrippedEq seq a b = true) ∧
    (∀ o1 o2 : Option T, optStrippedCmp cmp o1 o2 = Ordering.eq ↔
        optStrippedEq seq o1 o2 = true) ∧
    (∀ xs ys : List T, vecStrippedCmp cmp xs ys = Ordering.eq ↔
        vecStrippedEq seq xs ys = true) ∧
    (∀ x : T, optStrippedCmp cmp none (some x) = Ordering.lt) ∧
    (∀ (x : T) (ys : List T),
        vecStrippedCmp cmp [] (x :: ys) = Ordering.lt) ∧
    (∀ (x y : T) (xs ys : List T), cmp x y ≠ Ordering.eq →
        vecStrippedCmp cmp (x :: xs) (y :: ys) = cmp x y) ∧
    (∀ (x y : T) (xs ys : List T), cmp x y = Ordering.eq →
        vecStrippedCmp cmp (x :: xs) (y :: ys) = vecStrippedCmp cmp xs ys) := by
  refine ⟨?_, ?_, ?_, vecStrippedCmp_eq_iff cmp seq hc, ?_, ?_, ?_, ?_⟩
  · intro a b
    exact hc a.value b.value
  · intro a b
    exact hc a.val b.val
  · intro o1 o2
    cases o1 <;> cases o2 <;> simp [optStrippedCmp, optStrippedEq, hc]
  · intro x
    rfl
  · intro x ys
    rfl
  · intro x y xs ys h
    cases hcmp : cmp x y <;> simp [vecStrippedCmp, hcmp] <;> simp_all
  · intro x y xs ys h
    simp [vecStrippedCmp, h]

/-- Witness for C8 at the payload type `Bool` with `boolCmp` and boolean
equality, metadata type `Nat`. -/
theorem C8_stripped_cmp_consistent_witness :
    (∀ x y : Bool, boolCmp x y = Ordering.eq ↔ (x == y) = true) ∧
    ((∀ a b : Meta Bool Nat,
        Meta.stripped_cmp boolCmp a b = Ordering.eq ↔
        Meta.stripped_eq (fun x y : Bool => x == y) a b = true) ∧
    (∀ a b : BoxT Bool, boxStrippedCmp boolCmp a b = Ordering.eq ↔
        boxStrippedEq (fun x y : Bool => x == y) a b = true) ∧
    (∀ o1 o2 : Option Bool, optStrippedCmp boolCmp o1 o2 = Ordering.eq ↔
        optStrippedEq (fun x y : Bool => x == y) o1 o2 = true) ∧
    (∀ xs ys : List Bool, vecStrippedCmp boolCmp xs ys = Ordering.eq ↔
        vecStrippedEq (fun x y : Bool => x == y) xs ys = true) ∧
    (∀ x : Bool, optStrippedCmp boolCmp none (some x) = Ordering.lt) ∧
    (∀ (x : Bool) (ys : List Bool),
        vecStrippedCmp boolCmp [] (x :: ys) = Ordering.lt) ∧
    (∀ (x y : Bool) (xs ys : List Bool), boolCmp x y ≠ Ordering.eq →
        vecStrippedCmp boolCmp (x :: xs) (y :: ys) = boolCmp x y) ∧
    (∀ (x y : Bool) (xs ys : List Bool), boolCmp x y = Ordering.eq →
        vecStrippedCmp boolCmp (x :: xs) (y :: ys)
          = vecStrippedCmp boolCmp xs ys)) :=
  ⟨by decide,
    C8_stripped_cmp_consistent boolCmp (fun x y : Bool => x == y) (by decide)⟩
